import Mathlib

/-!
Shallow embedding of the framous crate (src/codec.rs, src/framed.rs).

Bytes are modelled as natural numbers (values below 256 where the codec
requires a genuine byte).  The blocking Read and Write handles are modelled
as explicit state machines: a Source consumes its state and yields either an
I/O error or the chunk of bytes that the call to read placed into the scratch
buffer (a zero-byte read is the empty chunk), and a Sink records written bytes
in its state, returning the count its write call accepted.  The decoder and
encoder traits of codec.rs are records of state-passing functions mirroring
Decoder::decode and Encoder::encode.  Since the Rust read loop may not
terminate, FramedRead.framed_read takes a fuel bound on the number of loop
iterations; it also records a trace of the read and decode calls it performs,
used by the ordering and buffer-invariant theorems.
-/

/-- Abstract I/O errors (std::io::Error, identified by kind where needed). -/
inductive IOErr where
  | invalidData : IOErr
  | other : IOErr
deriving DecidableEq, Repr

deriving instance DecidableEq for Except

/-- A byte source: the state-passing form of the Read handle.  One call to
read on state s returns the new handle state together with either an error or
the bytes the call deposited into the scratch buffer (src[..bytes_read] in
framed.rs; the empty list is a zero-byte read). -/
structure Source (ρ : Type) where
  read : ρ → ρ × Except IOErr (List Nat)

/-- A byte sink: the state-passing form of the Write handle, with the two
operations write (returning the count of bytes it accepted) and flush. -/
structure Sink (ω : Type) where
  write : ω → List Nat → ω × Except IOErr Nat
  flush : ω → ω × Except IOErr Unit

/-- The Decoder trait of codec.rs: decode takes the decoder state and the
accumulator contents and returns the new decoder state, the accumulator
contents after the call, and Ok(Some item), Ok(None) or Err. -/
structure Decoder (σ α : Type) where
  decode : σ → List Nat → σ × List Nat × Except IOErr (Option α)

/-- The Encoder trait of codec.rs: encode takes the encoder state, an item
and the destination buffer contents, and returns the new encoder state, the
buffer contents after the call, and Ok or Err. -/
structure Encoder (ε α : Type) where
  encode : ε → α → List Nat → ε × List Nat × Except IOErr Unit

/-- INITIAL_CAPACITY from framed.rs (a capacity hint; buffer contents are
modelled exactly, reserved capacity is not observable). -/
def INITIAL_CAPACITY : Nat := 8 * 1024

/-- The FramedRead struct: the Read handle, the decoder, and the accumulator
buffer. -/
structure FramedRead (ρ σ : Type) where
  inner : ρ
  decoder : σ
  buf : List Nat
deriving DecidableEq, Repr

/-- FramedRead::new - fresh empty accumulator. -/
def FramedRead.new (inner : ρ) (decoder : σ) : FramedRead ρ σ :=
  ⟨inner, decoder, []⟩

/-- The FramedWrite struct: the Write handle and the encoder. -/
structure FramedWrite (ω ε : Type) where
  inner : ω
  encoder : ε
deriving DecidableEq, Repr

/-- FramedWrite::new. -/
def FramedWrite.new (inner : ω) (encoder : ε) : FramedWrite ω ε :=
  ⟨inner, encoder⟩

/-- Trace events recording the calls framed_read makes: a read call with its
result, and a decode call with the accumulator contents before and after. -/
inductive Ev where
  | readEv : Except IOErr (List Nat) → Ev
  | decodeEv : List Nat → List Nat → Ev
deriving DecidableEq, Repr

/-- FramedRead::framed_read of framed.rs:
loop { read; append chunk to buf; decode; return on Some or Err }.
The fuel argument bounds the number of loop iterations (the Rust loop can
run forever); the result none means the loop did not return within fuel
iterations.  The second component is the trace of read and decode calls. -/
def FramedRead.framed_read (S : Source ρ) (D : Decoder σ α) :
    Nat → FramedRead ρ σ → Option (FramedRead ρ σ × Except IOErr α) × List Ev
  | 0, _ => (none, [])
  | fuel+1, st =>
    match S.read st.inner with
    | (r', .error e) => (some (⟨r', st.decoder, st.buf⟩, .error e), [Ev.readEv (.error e)])
    | (r', .ok chunk) =>
      match D.decode st.decoder (st.buf ++ chunk) with
      | (d', buf2, .error e) =>
          (some (⟨r', d', buf2⟩, .error e),
           [Ev.readEv (.ok chunk), Ev.decodeEv (st.buf ++ chunk) buf2])
      | (d', buf2, .ok (some item)) =>
          (some (⟨r', d', buf2⟩, .ok item),
           [Ev.readEv (.ok chunk), Ev.decodeEv (st.buf ++ chunk) buf2])
      | (d', buf2, .ok none) =>
          let rest := FramedRead.framed_read S D fuel ⟨r', d', buf2⟩
          (rest.1, Ev.readEv (.ok chunk) :: Ev.decodeEv (st.buf ++ chunk) buf2 :: rest.2)

/-- FramedWrite::framed_write of framed.rs: fresh buffer, encode, on encode
error return it; write the buffer to the sink (the count the sink accepted is
discarded as in the source, where only the error of write is propagated);
then flush. -/
def FramedWrite.framed_write (E : Encoder ε α) (K : Sink ω)
    (st : FramedWrite ω ε) (item : α) : FramedWrite ω ε × Except IOErr Unit :=
  match E.encode st.encoder item [] with
  | (e', _, .error err) => (⟨st.inner, e'⟩, .error err)
  | (e', dst, .ok _) =>
    match K.write st.inner dst with
    | (w', .error err) => (⟨w', e'⟩, .error err)
    | (w', .ok _) =>
      match K.flush w' with
      | (w'', .error err) => (⟨w'', e'⟩, .error err)
      | (w'', .ok _) => (⟨w'', e'⟩, .ok ())

/-- The Framed struct: a FramedRead and a FramedWrite. -/
structure Framed (ρ ω σ ε : Type) where
  reader : FramedRead ρ σ
  writer : FramedWrite ω ε
deriving DecidableEq, Repr

/-- Framed::new. -/
def Framed.new (r : ρ) (w : ω) (d : σ) (e : ε) : Framed ρ ω σ ε :=
  ⟨FramedRead.new r d, FramedWrite.new w e⟩

/-- Framed::split. -/
def Framed.split (f : Framed ρ ω σ ε) : FramedRead ρ σ × FramedWrite ω ε :=
  (f.reader, f.writer)

/-- Framed's FramedReader impl: delegate to the internal FramedRead. -/
def Framed.framed_read (S : Source ρ) (D : Decoder σ α) (fuel : Nat)
    (f : Framed ρ ω σ ε) : Option (Framed ρ ω σ ε × Except IOErr α) × List Ev :=
  match FramedRead.framed_read S D fuel f.reader with
  | (res, evs) => (res.map (fun p => (⟨p.1, f.writer⟩, p.2)), evs)

/-- Framed's FramedWriter impl: delegate to the internal FramedWrite. -/
def Framed.framed_write (E : Encoder ε α) (K : Sink ω)
    (f : Framed ρ ω σ ε) (item : α) : Framed ρ ω σ ε × Except IOErr Unit :=
  match FramedWrite.framed_write E K f.writer item with
  | (wst, r) => (⟨f.reader, wst⟩, r)

/-- The test message type of framed.rs (fields are the u8 / u16 values,
modelled as naturals; well-formedness below bounds them as the Rust types
do). -/
inductive TestMsg where
  | U8 : Nat → TestMsg
  | U16 : Nat → TestMsg
  | Unrecognised : TestMsg
deriving DecidableEq, Repr

/-- TestCodec's Decoder::decode from framed.rs: first byte is the length;
Ok(None) while fewer than length + 1 bytes are present; otherwise consume the
length byte and the message bytes, and produce U8 / U16 (big endian) /
Unrecognised by the length. -/
def testDecode (src : List Nat) : List Nat × Except IOErr (Option TestMsg) :=
  match src with
  | [] => ([], .ok none)
  | msg_len :: tail =>
    if tail.length < msg_len then (msg_len :: tail, .ok none)
    else
      match msg_len with
      | 1 => (tail.drop 1, .ok (some (TestMsg.U8 ((tail.take 1).headD 0))))
      | 2 => (tail.drop 2, .ok (some (TestMsg.U16
              ((tail.take 2).headD 0 * 256 + ((tail.take 2).drop 1).headD 0))))
      | _ => (tail.drop msg_len, .ok (some TestMsg.Unrecognised))

/-- TestCodec's Encoder::encode from framed.rs: U8 appends the length byte 1
and the value; U16 appends 2 and the big-endian bytes; Unrecognised fails
with an InvalidData error without touching the buffer. -/
def testEncode (item : TestMsg) (dst : List Nat) : List Nat × Except IOErr Unit :=
  match item with
  | TestMsg.U8 v => (dst ++ [1, v], .ok ())
  | TestMsg.U16 v => (dst ++ [2, v / 256, v % 256], .ok ())
  | TestMsg.Unrecognised => (dst, .error IOErr.invalidData)

/-- The TestCodec as a (stateless) Decoder. -/
def testDecoder : Decoder Unit TestMsg :=
  ⟨fun _ src => ((), testDecode src)⟩

/-- The TestCodec as a (stateless) Encoder. -/
def testEncoder : Encoder Unit TestMsg :=
  ⟨fun _ item dst => ((), testEncode item dst)⟩

/-- Sources in the tests of framed.rs are byte slices: the whole remaining
slice is delivered by the first read, later reads read zero bytes. -/
def oneShotSource : Source (List Nat) :=
  ⟨fun s => ([], .ok s)⟩

/-- A source that is at end of stream: every read reads zero bytes. -/
def eofSource : Source Unit :=
  ⟨fun _ => ((), .ok [])⟩

/-- Sinks in the tests of framed.rs are byte vectors: write appends all the
bytes and returns their count, flush does nothing. -/
def vecSink : Sink (List Nat) :=
  ⟨fun s bytes => (s ++ bytes, .ok bytes.length), fun s => (s, .ok ())⟩

/-- A sink whose write call accepts at most one byte per call, as the Write
contract permits. -/
def oneByteSink : Sink (List Nat) :=
  ⟨fun s bytes => (s ++ bytes.take 1, .ok (min 1 bytes.length)), fun s => (s, .ok ())⟩

/-- A decoder that reports Ok(None) (not enough data) on every call, leaving
the accumulator untouched. -/
def noneDecoder : Decoder Unit Unit :=
  ⟨fun d b => (d, b, .ok none)⟩

/-- A source that delivers the chunks of its state list one per read, and
zero bytes once the list is exhausted. -/
def chunkSource : Source (List (List Nat)) :=
  ⟨fun cs => match cs with
    | [] => ([], .ok [])
    | c :: rest => (rest, .ok c)⟩

/-- A source whose first read delivers the two test frames back to back and
whose later reads read zero bytes; the state counts the reads performed. -/
def twoMsgSource : Source Nat :=
  ⟨fun n => match n with
    | 0 => (1, .ok [1, 128, 2, 1, 128])
    | k + 1 => (k + 2, .ok [])⟩

/-- Well-formed test messages: the payloads fit the u8 / u16 fields of the
Rust TestMsg, and Unrecognised (which the encoder rejects) is excluded. -/
def msgWF : TestMsg → Prop
  | TestMsg.U8 v => v < 256
  | TestMsg.U16 v => v < 65536
  | TestMsg.Unrecognised => False

/-- The state of the read loop after one full iteration whose decode reported
Ok(None): the handle state, decoder state and accumulator left by the read
and decode calls of that iteration. -/
def stepState (S : Source ρ) (D : Decoder σ α) (st : FramedRead ρ σ) : FramedRead ρ σ :=
  match S.read st.inner with
  | (r', .error _) => ⟨r', st.decoder, st.buf⟩
  | (r', .ok chunk) =>
    match D.decode st.decoder (st.buf ++ chunk) with
    | (d', buf2, _) => ⟨r', d', buf2⟩

/-- Whether one iteration of the read loop returns: true exactly when the
read errors or the decode call reports Ok(Some) or Err. -/
def terminalStep (S : Source ρ) (D : Decoder σ α) (st : FramedRead ρ σ) : Bool :=
  match S.read st.inner with
  | (_, .error _) => true
  | (_, .ok chunk) =>
    match D.decode st.decoder (st.buf ++ chunk) with
    | (_, _, .ok none) => false
    | (_, _, _) => true

/-- The accumulator contents after replaying a trace from a starting buffer:
each successful read appends its chunk at the back, each decode call replaces
the buffer by what the decoder left. -/
def traceBuf : List Nat → List Ev → List Nat
  | b, [] => b
  | b, Ev.readEv (Except.ok c) :: evs => traceBuf (b ++ c) evs
  | b, Ev.readEv (Except.error _) :: evs => traceBuf b evs
  | _, Ev.decodeEv _ after :: evs => traceBuf after evs

/-- The accumulator discipline along a trace: bytes enter only by a read
appending its chunk at the back, every decode call sees exactly the
accumulated buffer, and a decode call only removes bytes from the front
(the buffer it leaves is a suffix obtained by dropping a consumed front). -/
def TraceWF : List Nat → List Ev → Prop
  | _, [] => True
  | b, Ev.readEv (Except.ok c) :: evs => TraceWF (b ++ c) evs
  | b, Ev.readEv (Except.error _) :: evs => TraceWF b evs
  | b, Ev.decodeEv before after :: evs =>
      before = b ∧ (∃ k, k ≤ b.length ∧ after = b.drop k) ∧ TraceWF after evs

/-- C1. The spec requires a zero-byte read before a complete message to be a
terminal error, but the code has no such check: with a source at end of
stream (every read returns zero bytes) and the test decoder waiting for more
data, framed_read never returns, for any number of loop iterations. -/
theorem framed_read_eof_never_returns (fuel : Nat) :
    (FramedRead.framed_read eofSource testDecoder fuel ⟨(), (), []⟩).1 = none := by
  induction fuel with
  | zero => rfl
  | succ n ih =>
    simpa [FramedRead.framed_read, eofSource, testDecoder, testDecode] using ih

/-- C2. framed_write performs a single write call and ignores the count of
bytes the sink accepted: with a sink that accepts one byte per call, writing
U8 12 (encoded as the two bytes 1, 12) returns success although only the
byte 1 reached the sink. -/
theorem framed_write_partial_write_lost :
    FramedWrite.framed_write testEncoder oneByteSink ⟨[], ()⟩ (TestMsg.U8 12) =
        (⟨[1], ()⟩, Except.ok ()) ∧
      (testEncode (TestMsg.U8 12) []).1 = [1, 12] ∧ ([1] : List Nat) ≠ [1, 12] := by
  refine ⟨rfl, rfl, ?_⟩
  decide

/-- C4. If one underlying read delivers the encodings of two messages back to
back, two successive framed_read calls yield both messages in stream order;
the leftover bytes of the second message stay in the accumulator between the
calls (the second call's mandatory read returns zero bytes). -/
theorem framed_read_two_messages_one_read
    (S : Source ρ) (D : Decoder σ α) (r₀ r₁ r₂ : ρ) (d₀ d₁ d₂ : σ)
    (e₁ e₂ : List Nat) (m₁ m₂ : α)
    (h1 : S.read r₀ = (r₁, Except.ok (e₁ ++ e₂)))
    (h2 : S.read r₁ = (r₂, Except.ok []))
    (hd1 : D.decode d₀ (e₁ ++ e₂) = (d₁, e₂, Except.ok (some m₁)))
    (hd2 : D.decode d₁ e₂ = (d₂, [], Except.ok (some m₂))) :
    (FramedRead.framed_read S D 1 ⟨r₀, d₀, []⟩).1 = some (⟨r₁, d₁, e₂⟩, Except.ok m₁) ∧
      (FramedRead.framed_read S D 1 ⟨r₁, d₁, e₂⟩).1 = some (⟨r₂, d₂, []⟩, Except.ok m₂) := by
  constructor
  · simp [FramedRead.framed_read, h1, hd1]
  · simp [FramedRead.framed_read, h2, hd2]

/-- Witness for C4 at the test codec: the first read delivers the frames of
U8 128 and U16 384 back to back. -/
theorem framed_read_two_messages_one_read_witness :
    (FramedRead.framed_read twoMsgSource testDecoder 1 ⟨0, (), []⟩).1 =
        some (⟨1, (), [2, 1, 128]⟩, Except.ok (TestMsg.U8 128)) ∧
      (FramedRead.framed_read twoMsgSource testDecoder 1 ⟨1, (), [2, 1, 128]⟩).1 =
        some (⟨2, (), []⟩, Except.ok (TestMsg.U16 384)) :=
  framed_read_two_messages_one_read twoMsgSource testDecoder 0 1 2 () () ()
    [1, 128] [2, 1, 128] (TestMsg.U8 128) (TestMsg.U16 384) rfl rfl rfl rfl

/-- C5. Every framed_read call performs a read on the source before its
first decode call: for any source, decoder and starting state (in particular
one whose accumulator already holds a complete message), the trace of a run
given any positive iteration budget starts with a read event. -/
theorem framed_read_reads_before_decode (S : Source ρ) (D : Decoder σ α)
    (st : FramedRead ρ σ) (fuel : Nat) (h : 0 < fuel) :
    ∃ res evs, (FramedRead.framed_read S D fuel st).2 = Ev.readEv res :: evs := by
  cases fuel with
  | zero => exact absurd h (by simp)
  | succ n =>
    rcases hr : S.read st.inner with ⟨r', rres⟩
    rcases rres with e | chunk
    · exact ⟨Except.error e, [], by simp [FramedRead.framed_read, hr]⟩
    · rcases hd : D.decode st.decoder (st.buf ++ chunk) with ⟨d', buf2, dres⟩
      rcases dres with e | item
      · exact ⟨Except.ok chunk, [Ev.decodeEv (st.buf ++ chunk) buf2],
          by simp [FramedRead.framed_read, hr, hd]⟩
      · rcases item with _ | item
        · exact ⟨Except.ok chunk,
            Ev.decodeEv (st.buf ++ chunk) buf2 ::
              (FramedRead.framed_read S D n ⟨r', d', buf2⟩).2,
            by simp [FramedRead.framed_read, hr, hd]⟩
        · exact ⟨Except.ok chunk, [Ev.decodeEv (st.buf ++ chunk) buf2],
            by simp [FramedRead.framed_read, hr, hd]⟩

/-- Witness for C5: a concrete call whose accumulator already holds the full
frame of U8 128 still reads first. -/
theorem framed_read_reads_before_decode_witness :
    0 < 1 ∧ ∃ res evs,
      (FramedRead.framed_read eofSource testDecoder 1 ⟨(), (), [1, 128]⟩).2 =
        Ev.readEv res :: evs :=
  ⟨by decide,
   framed_read_reads_before_decode eofSource testDecoder ⟨(), (), [1, 128]⟩ 1 (by decide)⟩

/-- C6. If the encoder fails inside framed_write, the error is returned and
the sink is never touched: for every encoder, sink, message and states, an
encode error makes framed_write return that error with the sink state exactly
as before the call. -/
theorem framed_write_encode_error_leaves_sink (E : Encoder ε α) (K : Sink ω)
    (w : ω) (e e' : ε) (m : α) (dst : List Nat) (err : IOErr)
    (h : E.encode e m [] = (e', dst, Except.error err)) :
    FramedWrite.framed_write E K ⟨w, e⟩ m = (⟨w, e'⟩, Except.error err) := by
  simp [FramedWrite.framed_write, h]

/-- Witness for C6: encoding Unrecognised fails with InvalidData and leaves
the byte-vector sink empty. -/
theorem framed_write_encode_error_leaves_sink_witness :
    FramedWrite.framed_write testEncoder vecSink ⟨[], ()⟩ TestMsg.Unrecognised =
      (⟨[], ()⟩, Except.error IOErr.invalidData) :=
  framed_write_encode_error_leaves_sink testEncoder vecSink [] () ()
    TestMsg.Unrecognised [] IOErr.invalidData rfl

/-- C9. The duplex pair delegates: framed_read and framed_write on a Framed
are exactly framed_read on its FramedRead half and framed_write on its
FramedWrite half (the other half untouched), and split of Framed::new r w d e
is exactly (FramedRead::new r d, FramedWrite::new w e). -/
theorem framed_pair_delegates {ρ ω σ ε α : Type} :
    (∀ (r : ρ) (w : ω) (d : σ) (e : ε),
        (Framed.new r w d e).split = (FramedRead.new r d, FramedWrite.new w e))
  ∧ (∀ (S : Source ρ) (D : Decoder σ α) (fuel : Nat) (f : Framed ρ ω σ ε),
        Framed.framed_read S D fuel f =
          ((FramedRead.framed_read S D fuel f.reader).1.map
              (fun p => (⟨p.1, f.writer⟩, p.2)),
           (FramedRead.framed_read S D fuel f.reader).2))
  ∧ (∀ (E : Encoder ε α) (K : Sink ω) (f : Framed ρ ω σ ε) (item : α),
        Framed.framed_write E K f item =
          (⟨f.reader, (FramedWrite.framed_write E K f.writer item).1⟩,
           (FramedWrite.framed_write E K f.writer item).2)) :=
  ⟨fun _ _ _ _ => rfl, fun _ _ _ _ => rfl, fun _ _ _ _ => rfl⟩

/-- C7. Round trip at the test codec: every well-formed message written by
framed_write to a byte-vector sink is recovered by framed_read from a source
fed exactly the bytes that reached the sink; and the concrete cases of the
spec: bytes 1, 128 decode to U8 128, bytes 2, 1, 128 decode to U16 384, and
U16 1234 encodes to the bytes 2, 4, 210. -/
theorem framed_write_read_roundtrip :
    (∀ m : TestMsg, msgWF m →
      ∃ bytes : List Nat,
        FramedWrite.framed_write testEncoder vecSink ⟨[], ()⟩ m =
            (⟨bytes, ()⟩, Except.ok ()) ∧
          (FramedRead.framed_read oneShotSource testDecoder 1 ⟨bytes, (), []⟩).1 =
            some (⟨[], (), []⟩, Except.ok m))
  ∧ (FramedRead.framed_read oneShotSource testDecoder 1 ⟨[1, 128], (), []⟩).1 =
      some (⟨[], (), []⟩, Except.ok (TestMsg.U8 128))
  ∧ (FramedRead.framed_read oneShotSource testDecoder 1 ⟨[2, 1, 128], (), []⟩).1 =
      some (⟨[], (), []⟩, Except.ok (TestMsg.U16 384))
  ∧ testEncode (TestMsg.U16 1234) [] = ([2, 4, 210], Except.ok ()) := by
  refine ⟨?_, rfl, rfl, rfl⟩
  intro m hm
  cases m with
  | U8 v =>
    refine ⟨[1, v], ?_, ?_⟩
    · simp [FramedWrite.framed_write, testEncoder, testEncode, vecSink]
    · simp [FramedRead.framed_read, oneShotSource, testDecoder, testDecode]
  | U16 v =>
    have hv : v / 256 * 256 + v % 256 = v := by omega
    refine ⟨[2, v / 256, v % 256], ?_, ?_⟩
    · simp [FramedWrite.framed_write, testEncoder, testEncode, vecSink]
    · simp [FramedRead.framed_read, oneShotSource, testDecoder, testDecode, hv]
  | Unrecognised => exact hm.elim

/-- Witness for C7: the round trip at the concrete message U16 1234. -/
theorem framed_write_read_roundtrip_witness :
    msgWF (TestMsg.U16 1234) ∧
      ∃ bytes : List Nat,
        FramedWrite.framed_write testEncoder vecSink ⟨[], ()⟩ (TestMsg.U16 1234) =
            (⟨bytes, ()⟩, Except.ok ()) ∧
          (FramedRead.framed_read oneShotSource testDecoder 1 ⟨bytes, (), []⟩).1 =
            some (⟨[], (), []⟩, Except.ok (TestMsg.U16 1234)) :=
  ⟨by show (1234 : Nat) < 65536; decide,
   framed_write_read_roundtrip.1 (TestMsg.U16 1234) (by show (1234 : Nat) < 65536; decide)⟩

/-- C8. The accumulator discipline of the read loop: under the decoder
contract that decode only removes bytes from the front of the buffer, every
run of framed_read has a well-formed trace - each successful read appends its
chunk at the back of the accumulator, each decode call sees exactly the
accumulated buffer (all bytes read, in FIFO order, minus the consumed front)
and only drops a front - and the accumulator of the returned state is
exactly the trace-accumulated buffer, so the discipline carries over to the
next framed_read call on the same assembler. -/
theorem framed_read_buffer_discipline (S : Source ρ) (D : Decoder σ α)
    (hFront : ∀ d b, ∃ k, k ≤ b.length ∧ (D.decode d b).2.1 = List.drop k b) :
    ∀ (fuel : Nat) (st : FramedRead ρ σ),
      TraceWF st.buf (FramedRead.framed_read S D fuel st).2 ∧
        ∀ st' r, (FramedRead.framed_read S D fuel st).1 = some (st', r) →
          st'.buf = traceBuf st.buf (FramedRead.framed_read S D fuel st).2 := by
  intro fuel
  induction fuel with
  | zero =>
    intro st
    exact ⟨trivial, fun st' r h => by cases h⟩
  | succ n ih =>
    intro st
    rcases hr : S.read st.inner with ⟨r', rres⟩
    rcases rres with e | chunk
    · constructor
      · simp [FramedRead.framed_read, hr, TraceWF]
      · intro st' r h
        simp [FramedRead.framed_read, hr] at h
        simp [FramedRead.framed_read, hr, traceBuf, ← h.1]
    · obtain ⟨k, hk, hdrop⟩ := hFront st.decoder (st.buf ++ chunk)
      rcases hd : D.decode st.decoder (st.buf ++ chunk) with ⟨d', buf2, dres⟩
      rw [hd] at hdrop
      have hdrop' : buf2 = List.drop k (st.buf ++ chunk) := hdrop
      rcases dres with e | item
      · constructor
        · simp only [FramedRead.framed_read, hr, hd, TraceWF]
          exact ⟨trivial, ⟨k, hk, hdrop'⟩, trivial⟩
        · intro st' r h
          simp [FramedRead.framed_read, hr, hd] at h
          simp [FramedRead.framed_read, hr, hd, traceBuf, ← h.1]
      · rcases item with _ | item
        · have IH := ih ⟨r', d', buf2⟩
          constructor
          · simp only [FramedRead.framed_read, hr, hd, TraceWF]
            exact ⟨trivial, ⟨k, hk, hdrop'⟩, IH.1⟩
          · intro st' r h
            simp only [FramedRead.framed_read, hr, hd] at h
            simp only [FramedRead.framed_read, hr, hd, traceBuf]
            exact IH.2 st' r h
        · constructor
          · simp only [FramedRead.framed_read, hr, hd, TraceWF]
            exact ⟨trivial, ⟨k, hk, hdrop'⟩, trivial⟩
          · intro st' r h
            simp [FramedRead.framed_read, hr, hd] at h
            simp [FramedRead.framed_read, hr, hd, traceBuf, ← h.1]

/-- The test decoder only removes bytes from the front of the accumulator. -/
theorem testDecode_drops_front :
    ∀ (d : Unit) (b : List Nat),
      ∃ k, k ≤ b.length ∧ (testDecoder.decode d b).2.1 = List.drop k b := by
  intro _ b
  rcases b with _ | ⟨msg_len, tail⟩
  · exact ⟨0, by simp, rfl⟩
  · by_cases hlen : tail.length < msg_len
    · exact ⟨0, by simp, by simp [testDecoder, testDecode, hlen]⟩
    · refine ⟨msg_len + 1, by simp; omega, ?_⟩
      match msg_len, hlen with
      | 0, hlen => simp [testDecoder, testDecode]
      | 1, hlen => simp [testDecoder, testDecode, hlen]
      | 2, hlen => simp [testDecoder, testDecode, hlen]
      | (j+3), hlen => simp [testDecoder, testDecode, hlen]

/-- Witness for C8 at the test codec: a run over the two back-to-back test
frames obeys the accumulator discipline. -/
theorem framed_read_buffer_discipline_witness :
    TraceWF (⟨0, (), []⟩ : FramedRead Nat Unit).buf
        (FramedRead.framed_read twoMsgSource testDecoder 1 ⟨0, (), []⟩).2 ∧
      ∀ st' r, (FramedRead.framed_read twoMsgSource testDecoder 1 ⟨0, (), []⟩).1 =
          some (st', r) →
        st'.buf = traceBuf (⟨0, (), []⟩ : FramedRead Nat Unit).buf
          (FramedRead.framed_read twoMsgSource testDecoder 1 ⟨0, (), []⟩).2 :=
  framed_read_buffer_discipline twoMsgSource testDecoder testDecode_drops_front 1 ⟨0, (), []⟩

/-- A run that returns within fuel + 1 iterations whose first iteration does
not return continues from the stepped state. -/
theorem framed_read_succ_not_terminal (S : Source ρ) (D : Decoder σ α)
    (st : FramedRead ρ σ) (fuel : Nat) (h : terminalStep S D st = false) :
    (FramedRead.framed_read S D (fuel + 1) st).1 =
      (FramedRead.framed_read S D fuel (stepState S D st)).1 := by
  rcases hr : S.read st.inner with ⟨r', rres⟩
  rcases rres with e | chunk
  · simp [terminalStep, hr] at h
  · rcases hd : D.decode st.decoder (st.buf ++ chunk) with ⟨d', buf2, dres⟩
    rcases dres with e | item
    · simp [terminalStep, hr, hd] at h
    · rcases item with _ | item
      · simp [FramedRead.framed_read, stepState, hr, hd]
      · simp [terminalStep, hr, hd] at h

/-- A terminal first iteration makes framed_read return within any positive
number of iterations. -/
theorem framed_read_succ_terminal (S : Source ρ) (D : Decoder σ α)
    (st : FramedRead ρ σ) (fuel : Nat) (h : terminalStep S D st = true) :
    ∃ res, (FramedRead.framed_read S D (fuel + 1) st).1 = some res := by
  rcases hr : S.read st.inner with ⟨r', rres⟩
  rcases rres with e | chunk
  · exact ⟨(⟨r', st.decoder, st.buf⟩, Except.error e), by simp [FramedRead.framed_read, hr]⟩
  · rcases hd : D.decode st.decoder (st.buf ++ chunk) with ⟨d', buf2, dres⟩
    rcases dres with e | item
    · exact ⟨(⟨r', d', buf2⟩, Except.error e), by simp [FramedRead.framed_read, hr, hd]⟩
    · rcases item with _ | item
      · simp [terminalStep, hr, hd] at h
      · exact ⟨(⟨r', d', buf2⟩, Except.ok item), by simp [FramedRead.framed_read, hr, hd]⟩

/-- A returning run reaches a terminal iteration. -/
theorem framed_read_some_terminal (S : Source ρ) (D : Decoder σ α) :
    ∀ (fuel : Nat) (st : FramedRead ρ σ) res,
      (FramedRead.framed_read S D fuel st).1 = some res →
      ∃ k, terminalStep S D ((stepState S D)^[k] st) = true := by
  intro fuel
  induction fuel with
  | zero => intro st res h; cases h
  | succ n ih =>
    intro st res h
    cases ht : terminalStep S D st with
    | true => exact ⟨0, ht⟩
    | false =>
      rw [framed_read_succ_not_terminal S D st n ht] at h
      obtain ⟨k, hk⟩ := ih (stepState S D st) res h
      exact ⟨k + 1, by rw [Function.iterate_succ_apply]; exact hk⟩

/-- A reachable terminal iteration makes some run return. -/
theorem framed_read_terminal_some (S : Source ρ) (D : Decoder σ α) :
    ∀ (k : Nat) (st : FramedRead ρ σ),
      terminalStep S D ((stepState S D)^[k] st) = true →
      ∃ fuel res, (FramedRead.framed_read S D fuel st).1 = some res := by
  intro k
  induction k with
  | zero =>
    intro st h
    obtain ⟨res, hres⟩ := framed_read_succ_terminal S D st 0 (by simpa using h)
    exact ⟨1, res, hres⟩
  | succ n ih =>
    intro st h
    cases ht : terminalStep S D st with
    | true =>
      obtain ⟨res, hres⟩ := framed_read_succ_terminal S D st 0 ht
      exact ⟨1, res, hres⟩
    | false =>
      rw [Function.iterate_succ_apply] at h
      obtain ⟨fuel, res, hres⟩ := ih (stepState S D st) h
      exact ⟨fuel + 1, res, by rw [framed_read_succ_not_terminal S D st fuel ht]; exact hres⟩

/-- C10. framed_read returns within some number of loop iterations exactly
when some iteration has a read that errors or a decode that reports Ok(Some)
or Err; and when no read ever errors and the decoder reports Ok(None) on
every call - in particular with a source reporting zero bytes on every read -
framed_read never returns, for any number of iterations. -/
theorem framed_read_termination (S : Source ρ) (D : Decoder σ α) (st : FramedRead ρ σ) :
    ((∃ fuel res, (FramedRead.framed_read S D fuel st).1 = some res) ↔
        ∃ k, terminalStep S D ((stepState S D)^[k] st) = true)
  ∧ ((∀ r e, (S.read r).2 ≠ Except.error e) →
      (∀ d b, (D.decode d b).2.2 = Except.ok none) →
      ∀ fuel, (FramedRead.framed_read S D fuel st).1 = none) := by
  constructor
  · constructor
    · rintro ⟨fuel, res, h⟩
      exact framed_read_some_terminal S D fuel st res h
    · rintro ⟨k, hk⟩
      exact framed_read_terminal_some S D k st hk
  · intro hS hD
    have hterm : ∀ st' : FramedRead ρ σ, terminalStep S D st' = false := by
      intro st'
      rcases hr : S.read st'.inner with ⟨r', rres⟩
      rcases rres with e | chunk
      · exact absurd (by rw [hr]) (hS st'.inner e)
      · rcases hd : D.decode st'.decoder (st'.buf ++ chunk) with ⟨d', buf2, dres⟩
        have hdn := hD st'.decoder (st'.buf ++ chunk)
        rw [hd] at hdn
        have hnone : dres = Except.ok none := hdn
        subst hnone
        simp [terminalStep, hr, hd]
    have : ∀ (fuel : Nat) (st' : FramedRead ρ σ),
        (FramedRead.framed_read S D fuel st').1 = none := by
      intro fuel
      induction fuel with
      | zero => intro st'; rfl
      | succ n ih =>
        intro st'
        rw [framed_read_succ_not_terminal S D st' n (hterm st')]
        exact ih (stepState S D st')
    exact fun fuel => this fuel st

/-- Witness for C10: with a source forever at end of stream and a decoder
that always reports Ok(None), framed_read does not return in 9 iterations. -/
theorem framed_read_termination_witness :
    (FramedRead.framed_read eofSource noneDecoder 9 ⟨(), (), []⟩).1 = none :=
  (framed_read_termination eofSource noneDecoder ⟨(), (), []⟩).2
    (fun r e h => by simp [eofSource] at h) (fun d b => rfl) 9

/-- One-step unfolding of the read loop at an iteration whose read succeeds
and whose decode reports Ok(None): the loop continues with the remaining
fuel from the updated state. -/
theorem framed_read_cons_none (S : Source ρ) (D : Decoder σ α) (st : FramedRead ρ σ)
    (fuel : Nat) (r' : ρ) (chunk : List Nat) (d' : σ) (buf2 : List Nat)
    (hr : S.read st.inner = (r', Except.ok chunk))
    (hd : D.decode st.decoder (st.buf ++ chunk) = (d', buf2, Except.ok none)) :
    FramedRead.framed_read S D (fuel + 1) st =
      ((FramedRead.framed_read S D fuel ⟨r', d', buf2⟩).1,
       Ev.readEv (Except.ok chunk) :: Ev.decodeEv (st.buf ++ chunk) buf2 ::
         (FramedRead.framed_read S D fuel ⟨r', d', buf2⟩).2) := by
  simp [FramedRead.framed_read, hr, hd]

/-- Auxiliary induction for C3: with the first bytes of the frame already
accumulated, delivering the remaining bytes chunk by chunk keeps the decoder
reporting Ok(None) until the last chunk, at which point framed_read returns
the message with an emptied accumulator; no shorter run returns. -/
theorem chunked_aux (D : Decoder σ α) (b : List Nat) (m : α)
    (hInc : ∀ (d : σ) (k : Nat), k < b.length →
      ∃ d', D.decode d (b.take k) = (d', b.take k, Except.ok none))
    (hProd : ∀ d : σ, ∃ d', D.decode d b = (d', [], Except.ok (some m))) :
    ∀ (cs : List (List Nat)) (d : σ) (k : Nat),
      cs ≠ [] → (∀ c ∈ cs, c ≠ []) → b.take k ++ cs.flatten = b →
      (∃ d' evs, FramedRead.framed_read chunkSource D cs.length ⟨cs, d, b.take k⟩ =
          (some (⟨[], d', []⟩, Except.ok m), evs)) ∧
        ∀ fuel, fuel < cs.length →
          (FramedRead.framed_read chunkSource D fuel ⟨cs, d, b.take k⟩).1 = none := by
  intro cs
  induction cs with
  | nil => intro d k hne _ _; exact absurd rfl hne
  | cons c cs' ih =>
    intro d k _ hcne hflat
    set t := b.take k with ht
    rcases cs' with _ | ⟨c₂, rest⟩
    · have hb : t ++ c = b := by simpa using hflat
      obtain ⟨d', hd⟩ := hProd d
      constructor
      · refine ⟨d', [Ev.readEv (Except.ok c), Ev.decodeEv b []], ?_⟩
        simp [FramedRead.framed_read, chunkSource, hb, hd]
      · intro fuel hfuel
        have hf0 : fuel = 0 := by simpa using hfuel
        subst hf0
        rfl
    · have hbfull : (t ++ c) ++ (c₂ :: rest).flatten = b := by
        simpa [List.append_assoc] using hflat
      have htake : b.take ((t ++ c).length) = t ++ c := by
        conv_lhs => rw [← hbfull]
        exact List.take_left _ _
      have hlen : (t ++ c).length < b.length := by
        have hlens : b.length = (t ++ c).length + (c₂ :: rest).flatten.length := by
          conv_lhs => rw [← hbfull]
          simp only [List.length_append]
        have hc₂ : c₂ ≠ [] := hcne c₂ (by simp)
        have hpos : 0 < (c₂ :: rest).flatten.length := by
          simp only [List.flatten_cons, List.length_append]
          rcases c₂ with _ | ⟨x, xs⟩
          · exact absurd rfl hc₂
          · simp
        omega
      obtain ⟨d₁, hd₁⟩ := hInc d ((t ++ c).length) hlen
      rw [htake] at hd₁
      have hnext : b.take ((t ++ c).length) ++ (c₂ :: rest).flatten = b := by
        rw [htake]; exact hbfull
      have IH := ih d₁ ((t ++ c).length) (by simp)
        (fun x hx => hcne x (List.mem_cons_of_mem _ hx)) hnext
      rw [htake] at IH
      constructor
      · obtain ⟨d', evs, hIH⟩ := IH.1
        refine ⟨d', Ev.readEv (Except.ok c) :: Ev.decodeEv (t ++ c) (t ++ c) :: evs, ?_⟩
        show FramedRead.framed_read chunkSource D ((c₂ :: rest).length + 1)
          ⟨c :: c₂ :: rest, d, t⟩ = _
        rw [framed_read_cons_none chunkSource D ⟨c :: c₂ :: rest, d, t⟩
          (c₂ :: rest).length (c₂ :: rest) c d₁ (t ++ c) rfl hd₁, hIH]
      · intro fuel hfuel
        cases fuel with
        | zero => rfl
        | succ f =>
          have hf : f < (c₂ :: rest).length := by
            simp only [List.length_cons] at hfuel ⊢
            omega
          rw [framed_read_cons_none chunkSource D ⟨c :: c₂ :: rest, d, t⟩
            f (c₂ :: rest) c d₁ (t ++ c) rfl hd₁]
          exact IH.2 f hf

/-- C3. For a decoder that reports Ok(None) on every proper byte-sequence
front of a frame and produces the message m, consuming all its bytes, on
exactly the full frame, an assembler whose source delivers the frame in
arbitrarily small nonempty chunks returns exactly one message: the
framed_read call returns Ok m at exactly the iteration in which the last
byte arrives (no smaller iteration budget returns), and the accumulator is
left empty, so no byte beyond the frame is consumed. -/
theorem framed_read_chunked_delivery (D : Decoder σ α) (b : List Nat) (m : α)
    (d₀ : σ) (chunks : List (List Nat))
    (hne : chunks ≠ []) (hcne : ∀ c ∈ chunks, c ≠ [])
    (hflat : chunks.flatten = b)
    (hInc : ∀ (d : σ) (k : Nat), k < b.length →
      ∃ d', D.decode d (b.take k) = (d', b.take k, Except.ok none))
    (hProd : ∀ d : σ, ∃ d', D.decode d b = (d', [], Except.ok (some m))) :
    (∃ d' evs, FramedRead.framed_read chunkSource D chunks.length ⟨chunks, d₀, []⟩ =
        (some (⟨[], d', []⟩, Except.ok m), evs)) ∧
      ∀ fuel, fuel < chunks.length →
        (FramedRead.framed_read chunkSource D fuel ⟨chunks, d₀, []⟩).1 = none := by
  have h0 : b.take 0 ++ chunks.flatten = b := by simpa using hflat
  have h := chunked_aux D b m hInc hProd chunks d₀ 0 hne hcne h0
  simpa using h

/-- Witness for C3 at the test codec: the frame of U16 384 delivered one
byte per read. -/
theorem framed_read_chunked_delivery_witness :
    (∃ d' evs, FramedRead.framed_read chunkSource testDecoder 3
        ⟨[[2], [1], [128]], (), []⟩ =
          (some (⟨[], d', []⟩, Except.ok (TestMsg.U16 384)), evs)) ∧
      ∀ fuel, fuel < 3 →
        (FramedRead.framed_read chunkSource testDecoder fuel
          ⟨[[2], [1], [128]], (), []⟩).1 = none := by
  have h := framed_read_chunked_delivery testDecoder [2, 1, 128] (TestMsg.U16 384) ()
    [[2], [1], [128]] (by decide) (by decide) rfl
    (by
      intro d k hk
      have hk' : k < 3 := by simpa using hk
      interval_cases k
      · exact ⟨(), rfl⟩
      · exact ⟨(), rfl⟩
      · exact ⟨(), rfl⟩)
    (fun d => ⟨(), rfl⟩)
  exact h
